import Mathlib

/-!
# A verification development for `forward_linked_list` (src/forward_list.cpp)

The container is a chain of heap nodes reached through two raw pointers,
`m_head` and `m_tail`.  The embedding keeps that shape: a `store` is the
free store, a pointer is an address into it (`none` is `nullptr`), and every
member function is a function on the list state that either returns the new
state or a `fault`.

Modelling conventions
* `new` returns a fresh address (the current size of the store); addresses are
  never handed out twice, so a pointer to a deleted node stays dangling.
* Reading, writing or deleting through a pointer that does not refer to a live
  node is undefined behaviour in C++; the embedding reports it as
  `fault.bad_pointer`.
* A failed `assert` is reported as `fault.assertion`.
* Loops run on a budget of iterations equal to the size of the store; a loop
  that uses the budget up is reported as `fault.no_fuel`.
-/

namespace forward_list

/-- Ways an execution can leave defined behaviour. -/
inductive fault where
  | assertion
  | bad_pointer
  | no_fuel
deriving DecidableEq

/-- The `struct node` of the source, lines 21-30: the link and the payload. -/
structure node (Item : Type) where
  next : Option Nat
  data : Item
deriving DecidableEq

/-- The free store: cell `p` is `some nd` while the node at address `p` is
live, `none` once it has been deleted. -/
abbrev store (Item : Type) := List (Option (node Item))

variable {Item : Type}

/-- Read through a node pointer (`p->next`, `p->data`). -/
def load (mem : store Item) (p : Nat) : Except fault (node Item) :=
  match mem[p]? with
  | some (some nd) => .ok nd
  | _ => .error .bad_pointer

/-- Write through a node pointer. -/
def write (mem : store Item) (p : Nat) (nd : node Item) : Except fault (store Item) :=
  match mem[p]? with
  | some (some _) => .ok (mem.set p (some nd))
  | _ => .error .bad_pointer

/-- The expression `new node { item }`: the constructor of lines 26-29 leaves
`next` at its default `nullptr`. -/
def new_node (mem : store Item) (item : Item) : store Item × Nat :=
  (mem ++ [some ⟨none, item⟩], mem.length)

/-- The expression `delete p`; deleting `nullptr` does nothing. -/
def delete_node (mem : store Item) : Option Nat → Except fault (store Item)
  | none => .ok mem
  | some p =>
    match mem[p]? with
    | some (some _) => .ok (mem.set p none)
    | _ => .error .bad_pointer

/-- The data members of the class, lines 270-272, next to the store they
point into. -/
structure forward_linked_list (Item : Type) where
  mem : store Item
  m_head : Option Nat
  m_tail : Option Nat
deriving DecidableEq

/-- Both iterator classes hold one node pointer, `m_current` (line 89); the
mutable iterator adds no data, so one type embeds both. -/
structure const_iterator where
  m_current : Option Nat
deriving DecidableEq

/-- The accessor `Get`, lines 83-86. -/
def const_iterator.Get (it : const_iterator) : Option Nat := it.m_current

/-- The dereference `operator*`, lines 50-54. -/
def deref (mem : store Item) (it : const_iterator) : Except fault Item :=
  match it.m_current with
  | none => .error .assertion
  | some p =>
    match load mem p with
    | .ok nd => .ok nd.data
    | .error e => .error e

/-- The pre-increment `operator++`, lines 56-61. -/
def incr (mem : store Item) (it : const_iterator) : Except fault const_iterator :=
  match it.m_current with
  | none => .error .assertion
  | some p =>
    match load mem p with
    | .ok nd => .ok ⟨nd.next⟩
    | .error e => .error e

/-- The post-increment `operator++(int)`, lines 63-70: the first component is
the returned copy, the second the iterator after the call. -/
def post_incr (mem : store Item) (it : const_iterator) :
    Except fault (const_iterator × const_iterator) :=
  match it.m_current with
  | none => .error .assertion
  | some p =>
    match load mem p with
    | .ok nd => .ok (it, ⟨nd.next⟩)
    | .error e => .error e

/-- The default constructor, line 131. -/
def default_ctor : forward_linked_list Item := ⟨[], none, none⟩

/-- The member `begin`, lines 240-243 and 260-263. -/
def forward_linked_list.begin_ (l : forward_linked_list Item) : const_iterator := ⟨l.m_head⟩

/-- The member `end`, lines 245-248 and 265-268. -/
def forward_linked_list.end_ (_l : forward_linked_list Item) : const_iterator := ⟨none⟩

/-- The member `push_front`, lines 156-168. -/
def push_front (l : forward_linked_list Item) (item : Item) :
    Except fault (forward_linked_list Item) :=
  let (mem, newnode) := new_node l.mem item
  match l.m_head with
  | some hd =>
    match load mem newnode with
    | .error e => .error e
    | .ok nd =>
      match write mem newnode { nd with next := some hd } with
      | .error e => .error e
      | .ok mem1 => .ok ⟨mem1, some newnode, l.m_tail⟩
  | none => .ok ⟨mem, some newnode, some newnode⟩

/-- The member `push_back`, lines 170-182. -/
def push_back (l : forward_linked_list Item) (item : Item) :
    Except fault (forward_linked_list Item) :=
  let (mem, newnode) := new_node l.mem item
  match l.m_tail with
  | some tl =>
    match load mem tl with
    | .error e => .error e
    | .ok nd =>
      match write mem tl { nd with next := some newnode } with
      | .error e => .error e
      | .ok mem1 => .ok ⟨mem1, l.m_head, some newnode⟩
  | none => .ok ⟨mem, some newnode, some newnode⟩

/-- The member `insert_after`, lines 184-196. -/
def insert_after (l : forward_linked_list Item) (place : const_iterator) (item : Item) :
    Except fault (forward_linked_list Item) :=
  match place.Get with
  | none => push_front l item
  | some ptr =>
    let (mem, newnode) := new_node l.mem item
    match load mem ptr with
    | .error e => .error e
    | .ok pnd =>
      match load mem newnode with
      | .error e => .error e
      | .ok nd =>
        match write mem newnode { nd with next := pnd.next } with
        | .error e => .error e
        | .ok mem1 =>
          match load mem1 ptr with
          | .error e => .error e
          | .ok pnd1 =>
            match write mem1 ptr { pnd1 with next := some newnode } with
            | .error e => .error e
            | .ok mem2 => .ok ⟨mem2, l.m_head, l.m_tail⟩

/-- The loop of the const `find`, lines 200-207, started at `it`. -/
def find_loop [DecidableEq Item] :
    Nat → store Item → const_iterator → Item → Except fault const_iterator
  | _, _, ⟨none⟩, _ => .ok ⟨none⟩
  | 0, _, ⟨some _⟩, _ => .error .no_fuel
  | fuel + 1, mem, ⟨some p⟩, item =>
    match deref mem ⟨some p⟩ with
    | .error e => .error e
    | .ok x =>
      if x = item then .ok ⟨some p⟩
      else
        match incr mem ⟨some p⟩ with
        | .error e => .error e
        | .ok it => find_loop fuel mem it item

/-- The member `find`, lines 198-214; the mutable overload returns the
iterator of the const one at the same node. -/
def find [DecidableEq Item] (l : forward_linked_list Item) (item : Item) :
    Except fault const_iterator :=
  find_loop l.mem.length l.mem l.begin_ item

/-- The member `erase_after`, lines 216-233. -/
def erase_after (l : forward_linked_list Item) (place : const_iterator) :
    Except fault (forward_linked_list Item) :=
  match place.Get with
  | some ptr =>
    match load l.mem ptr with
    | .error e => .error e
    | .ok pnd =>
      let nodeToDelete := pnd.next
      match pnd.next with
      | some nx =>
        match load l.mem nx with
        | .error e => .error e
        | .ok nnd =>
          match write l.mem ptr { pnd with next := nnd.next } with
          | .error e => .error e
          | .ok mem1 =>
            match delete_node mem1 nodeToDelete with
            | .error e => .error e
            | .ok mem2 => .ok ⟨mem2, l.m_head, l.m_tail⟩
      | none =>
        match delete_node l.mem nodeToDelete with
        | .error e => .error e
        | .ok mem2 => .ok ⟨mem2, l.m_head, l.m_tail⟩
  | none =>
    match l.m_head with
    | none => .error .assertion
    | some hd =>
      match load l.mem hd with
      | .error e => .error e
      | .ok hnd =>
        match delete_node l.mem (some hd) with
        | .error e => .error e
        | .ok mem1 => .ok ⟨mem1, hnd.next, l.m_tail⟩

/-- The member `pop_front`, lines 235-238. -/
def pop_front (l : forward_linked_list Item) : Except fault (forward_linked_list Item) :=
  erase_after l ⟨none⟩

/-- The `while (m_head)` loop of `clear`, lines 148-151, on the store and the
current `m_head`. -/
def clear_loop : Nat → store Item → Option Nat → Except fault (store Item)
  | _, mem, none => .ok mem
  | 0, _, some _ => .error .no_fuel
  | fuel + 1, mem, some hd =>
    match load mem hd with
    | .error e => .error e
    | .ok hnd =>
      match delete_node mem (some hd) with
      | .error e => .error e
      | .ok mem1 => clear_loop fuel mem1 hnd.next

/-- The member `clear`, lines 146-154. -/
def clear (l : forward_linked_list Item) : Except fault (forward_linked_list Item) :=
  match clear_loop l.mem.length l.mem l.m_head with
  | .error e => .error e
  | .ok mem1 => .ok ⟨mem1, none, none⟩

/-- The range-for loop of the initializer-list constructor, lines 135-138. -/
def push_back_each (l : forward_linked_list Item) :
    List Item → Except fault (forward_linked_list Item)
  | [] => .ok l
  | item :: items =>
    match push_back l item with
    | .error e => .error e
    | .ok l1 => push_back_each l1 items

/-- The initializer-list constructor, lines 133-139. -/
def initializer_list_ctor (items : List Item) : Except fault (forward_linked_list Item) :=
  push_back_each default_ctor items

/-- The loop `for (it = begin(); it != end(); ++it)` reading `*it` at every
step, as `PrintList` (lines 279-282) runs it; started at `it`. -/
def iterate_from : Nat → store Item → const_iterator → Except fault (List Item)
  | _, _, ⟨none⟩ => .ok []
  | 0, _, ⟨some _⟩ => .error .no_fuel
  | fuel + 1, mem, ⟨some p⟩ =>
    match deref mem ⟨some p⟩ with
    | .error e => .error e
    | .ok x =>
      match incr mem ⟨some p⟩ with
      | .error e => .error e
      | .ok it =>
        match iterate_from fuel mem it with
        | .error e => .error e
        | .ok xs => .ok (x :: xs)

/-- Iterating the list from `begin()` to `end()`. -/
def iterate (l : forward_linked_list Item) : Except fault (List Item) :=
  iterate_from l.mem.length l.mem l.begin_

/-- The iterator obtained from `it` by `n` pre-increments. -/
def advance (mem : store Item) : Nat → const_iterator → Except fault const_iterator
  | 0, it => .ok it
  | n + 1, it =>
    match incr mem it with
    | .error e => .error e
    | .ok it1 => advance mem n it1

/-- The iterator denoting the node at index `i`: `begin()` advanced `i` times. -/
def iterator_at (l : forward_linked_list Item) (i : Nat) : Except fault const_iterator :=
  advance l.mem i l.begin_

/-- The destructor, lines 141-144. -/
def destructor (l : forward_linked_list Item) : Except fault (forward_linked_list Item) :=
  clear l

/-- The function `PrintList`, lines 275-285: the items it writes between the
brackets, in the order written. -/
def PrintList (l : forward_linked_list Item) : Except fault (List Item) :=
  iterate l

/-- The function `main`, lines 287-316: the sequences written by its seven
calls of `PrintList`, followed by the two destructors at the end of scope. -/
def main : Except fault (List (List Int)) := do
  let l ← initializer_list_ctor [1, 2, 3]
  let out0 ← PrintList l
  let it ← find l 2
  let l ← insert_after l it 4
  let out1 ← PrintList l
  let it ← find l 1
  let l ← erase_after l it
  let out2 ← PrintList l
  let l ← push_front l 5
  let l ← push_back l 6
  let out3 ← PrintList l
  let l ← pop_front l
  let out4 ← PrintList l
  let l ← clear l
  let out5 ← PrintList l
  let cl ← initializer_list_ctor [2, 4, 6]
  let out6 ← PrintList cl
  let _ ← destructor cl
  let _ ← destructor l
  pure [out0, out1, out2, out3, out4, out5, out6]

/-- The position that `erase_after(place)` removes: the head for the end
iterator (used as "before the head"), otherwise the successor of the node of
`place`. -/
def position_after (l : forward_linked_list Item) (place : const_iterator) :
    Except fault const_iterator :=
  match place.Get with
  | none => .ok l.begin_
  | some _ => incr l.mem place

/-- The reference definition of `insert_after` on sequences, in the words of
the spec: at the end iterator ("before the head", `none`) the value goes to the
front; at the node of index `i` it is spliced between that node and its
successor. -/
def insert_after_spec (xs : List Item) (position : Option Nat) (v : Item) : List Item :=
  match position with
  | none => v :: xs
  | some i => xs.take (i + 1) ++ v :: xs.drop (i + 1)

/-- A call of one of the three members that keep `m_tail` themselves. -/
inductive end_op (Item : Type) where
  | push_front (item : Item)
  | push_back (item : Item)
  | clear

/-- Run one such call on a list state. -/
def end_op.run (l : forward_linked_list Item) : end_op Item → Except fault (forward_linked_list Item)
  | .push_front item => forward_list.push_front l item
  | .push_back item => forward_list.push_back l item
  | .clear => forward_list.clear l

/-- The nodes `cs` (address and payload, in order) are linked from the pointer
`p`, and the link of the last one is `q`; with no node, `p` is `q`. -/
def seg (mem : store Item) : Option Nat → List (Nat × Item) → Option Nat → Prop
  | p, [], q => p = q
  | p, c :: cs, q =>
    p = some c.1 ∧ ∃ nxt, mem[c.1]? = some (some ⟨nxt, c.2⟩) ∧ seg mem nxt cs q

/-- The address of the last node of a chain, `none` for the chain of no node:
what `m_tail` is meant to hold. -/
def last_addr (cs : List (Nat × Item)) : Option Nat := cs.getLast?.map Prod.fst

/-- The list state `l` holds exactly the chain `cs` from `m_head`, and `m_tail`
points to its last node. -/
def holds (l : forward_linked_list Item) (cs : List (Nat × Item)) : Prop :=
  seg l.mem l.m_head cs none ∧ l.m_tail = last_addr cs

/-- The state the constructor builds for `{ 10, 20, 30 }`: three nodes at
addresses 0, 1, 2. -/
def sample : forward_linked_list Nat :=
  ⟨[some ⟨some 1, 10⟩, some ⟨some 2, 20⟩, some ⟨none, 30⟩], some 0, some 2⟩

/-! ## Chains of nodes in the store -/

theorem lt_of_cell (mem : store Item) (a : Nat) (c : Option (node Item))
    (h : mem[a]? = some c) : a < mem.length := by
  by_contra hge
  rw [List.getElem?_eq_none (by omega)] at h
  exact absurd h (by simp)

theorem seg_nil (mem : store Item) (p q : Option Nat) : seg mem p [] q ↔ p = q := by
  simp [seg]

theorem seg_cons (mem : store Item) (p q : Option Nat) (c : Nat × Item)
    (cs : List (Nat × Item)) :
    seg mem p (c :: cs) q ↔
      p = some c.1 ∧ ∃ nxt, mem[c.1]? = some (some ⟨nxt, c.2⟩) ∧ seg mem nxt cs q := by
  simp [seg]

theorem seg_append (mem : store Item) (cs1 cs2 : List (Nat × Item)) (p q : Option Nat) :
    seg mem p (cs1 ++ cs2) q ↔ ∃ r, seg mem p cs1 r ∧ seg mem r cs2 q := by
  induction cs1 generalizing p with
  | nil => simp [seg_nil]
  | cons c cs ih =>
    simp only [List.cons_append, seg_cons, ih]
    constructor
    · rintro ⟨hp, nxt, hm, r, h1, h2⟩
      exact ⟨r, ⟨hp, nxt, hm, h1⟩, h2⟩
    · rintro ⟨r, ⟨hp, nxt, hm, h1⟩, h2⟩
      exact ⟨hp, nxt, hm, r, h1, h2⟩

theorem seg_det (mem : store Item) (cs1 cs2 : List (Nat × Item)) (p : Option Nat)
    (h1 : seg mem p cs1 none) (h2 : seg mem p cs2 none) : cs1 = cs2 := by
  induction cs1 generalizing p cs2 with
  | nil =>
    cases cs2 with
    | nil => rfl
    | cons c cs =>
      rw [seg_nil] at h1
      rw [seg_cons] at h2
      rw [h1] at h2
      exact absurd h2.1 (by simp)
  | cons c cs ih =>
    cases cs2 with
    | nil =>
      rw [seg_nil] at h2
      rw [seg_cons] at h1
      rw [h2] at h1
      exact absurd h1.1 (by simp)
    | cons d ds =>
      rw [seg_cons] at h1 h2
      obtain ⟨hp1, n1, hm1, hs1⟩ := h1
      obtain ⟨hp2, n2, hm2, hs2⟩ := h2
      have hfst : c.1 = d.1 := by
        rw [hp1] at hp2
        exact Option.some.inj hp2
      rw [hfst, hm2] at hm1
      have hnode : (⟨n2, d.2⟩ : node Item) = ⟨n1, c.2⟩ :=
        Option.some.inj (Option.some.inj hm1)
      have hn : n2 = n1 := congrArg node.next hnode
      have hd : d.2 = c.2 := congrArg node.data hnode
      subst hn
      have hcs : cs = ds := ih ds n2 hs1 hs2
      have hcd : c = d := Prod.ext hfst hd.symm
      rw [hcs, hcd]

theorem seg_nodup (mem : store Item) (cs : List (Nat × Item)) (p : Option Nat)
    (h : seg mem p cs none) : (cs.map Prod.fst).Nodup := by
  induction cs generalizing p with
  | nil => simp
  | cons c cs ih =>
    have h0 := h
    rw [seg_cons] at h
    obtain ⟨hp, nxt, hm, hs⟩ := h
    rw [List.map_cons, List.nodup_cons]
    refine ⟨?_, ih nxt hs⟩
    intro hin
    obtain ⟨d, hd, hdc⟩ := List.mem_map.mp hin
    obtain ⟨l1, l2, hl⟩ := List.append_of_mem hd
    rw [hl, seg_append] at hs
    obtain ⟨r, _, hr⟩ := hs
    have hr0 := hr
    rw [seg_cons] at hr
    have hrp : r = p := by rw [hr.1, hp, hdc]
    rw [hrp] at hr0
    have heq := seg_det mem (d :: l2) (c :: cs) p hr0 h0
    have hlen := congrArg List.length heq
    rw [hl] at hlen
    simp at hlen
    omega

theorem seg_lt (mem : store Item) (cs : List (Nat × Item)) (p q : Option Nat)
    (h : seg mem p cs q) : ∀ a ∈ cs.map Prod.fst, a < mem.length := by
  induction cs generalizing p with
  | nil => simp
  | cons c cs ih =>
    rw [seg_cons] at h
    obtain ⟨_, nxt, hm, hs⟩ := h
    intro a ha
    rw [List.map_cons, List.mem_cons] at ha
    rcases ha with ha | ha
    · by_contra hge
      rw [List.getElem?_eq_none (by omega)] at hm
      exact absurd hm (by simp)
    · exact ih nxt hs a ha

theorem seg_length_le (mem : store Item) (cs : List (Nat × Item)) (p : Option Nat)
    (h : seg mem p cs none) : cs.length ≤ mem.length := by
  have hnd := seg_nodup mem cs p h
  have hlt := seg_lt mem cs p none h
  have hsub : (cs.map Prod.fst).toFinset ⊆ Finset.range mem.length := by
    intro a ha
    rw [List.mem_toFinset] at ha
    exact Finset.mem_range.mpr (hlt a ha)
  have hcard := Finset.card_le_card hsub
  rw [List.toFinset_card_of_nodup hnd, Finset.card_range, List.length_map] at hcard
  exact hcard

theorem seg_frame_append (mem ext : store Item) (cs : List (Nat × Item))
    (p q : Option Nat) (h : seg mem p cs q) : seg (mem ++ ext) p cs q := by
  induction cs generalizing p with
  | nil => exact h
  | cons c cs ih =>
    rw [seg_cons] at h ⊢
    obtain ⟨hp, nxt, hm, hs⟩ := h
    refine ⟨hp, nxt, ?_, ih nxt hs⟩
    have hlt : c.1 < mem.length := by
      by_contra hge
      rw [List.getElem?_eq_none (by omega)] at hm
      exact absurd hm (by simp)
    rw [List.getElem?_append_left hlt]
    exact hm

theorem seg_frame_set (mem : store Item) (a : Nat) (v : Option (node Item))
    (cs : List (Nat × Item)) (p q : Option Nat) (h : seg mem p cs q)
    (ha : a ∉ cs.map Prod.fst) : seg (mem.set a v) p cs q := by
  induction cs generalizing p with
  | nil => exact h
  | cons c cs ih =>
    rw [seg_cons] at h ⊢
    obtain ⟨hp, nxt, hm, hs⟩ := h
    rw [List.map_cons, List.mem_cons, not_or] at ha
    refine ⟨hp, nxt, ?_, ih nxt hs ha.2⟩
    rw [List.getElem?_set_ne ha.1]
    exact hm

theorem iterate_from_of_seg (mem : store Item) (cs : List (Nat × Item)) (p : Option Nat)
    (fuel : Nat) (h : seg mem p cs none) (hf : cs.length ≤ fuel) :
    iterate_from fuel mem ⟨p⟩ = .ok (cs.map Prod.snd) := by
  induction cs generalizing p fuel with
  | nil =>
    rw [seg_nil] at h
    subst h
    cases fuel <;> rfl
  | cons c cs ih =>
    rw [seg_cons] at h
    obtain ⟨hp, nxt, hm, hs⟩ := h
    subst hp
    cases fuel with
    | zero => simp at hf
    | succ f =>
      have hf1 : cs.length ≤ f := by simpa using hf
      simp [iterate_from, deref, incr, load, hm, ih nxt f hs hf1]

theorem seg_of_iterate_from (mem : store Item) (fuel : Nat) (p : Option Nat)
    (xs : List Item) (h : iterate_from fuel mem ⟨p⟩ = .ok xs) :
    ∃ cs, seg mem p cs none ∧ cs.map Prod.snd = xs := by
  induction fuel generalizing p xs with
  | zero =>
    cases p with
    | none =>
      simp [iterate_from] at h
      exact ⟨[], by simp [seg_nil], by simpa using h⟩
    | some a => simp [iterate_from] at h
  | succ f ih =>
    cases p with
    | none =>
      simp [iterate_from] at h
      exact ⟨[], by simp [seg_nil], by simpa using h⟩
    | some a =>
      simp only [iterate_from, deref, incr, load] at h
      cases hm : mem[a]? with
      | none => simp [hm] at h
      | some cell =>
        cases cell with
        | none => simp [hm] at h
        | some nd =>
          simp only [hm] at h
          cases hrec : iterate_from f mem ⟨nd.next⟩ with
          | error e => simp [hrec] at h
          | ok ys =>
            simp only [hrec, Except.ok.injEq] at h
            obtain ⟨cs, hcs, hmap⟩ := ih nd.next ys hrec
            refine ⟨(a, nd.data) :: cs, ?_, ?_⟩
            · rw [seg_cons]
              exact ⟨rfl, nd.next, hm, hcs⟩
            · simp [hmap, h]

theorem advance_of_seg (mem : store Item) (cs : List (Nat × Item)) (p q : Option Nat)
    (h : seg mem p cs q) : advance mem cs.length ⟨p⟩ = .ok ⟨q⟩ := by
  induction cs generalizing p with
  | nil =>
    rw [seg_nil] at h
    subst h
    rfl
  | cons c cs ih =>
    rw [seg_cons] at h
    obtain ⟨hp, nxt, hm, hs⟩ := h
    subst hp
    simp [advance, incr, load, hm, ih nxt hs]

theorem seg_snoc (mem : store Item) (cs : List (Nat × Item)) (c : Nat × Item)
    (p q : Option Nat) :
    seg mem p (cs ++ [c]) q ↔
      seg mem p cs (some c.1) ∧ mem[c.1]? = some (some ⟨q, c.2⟩) := by
  rw [seg_append]
  constructor
  · rintro ⟨r, h1, h2⟩
    rw [seg_cons] at h2
    obtain ⟨hr, nxt, hm, hq⟩ := h2
    rw [seg_nil] at hq
    subst hq
    subst hr
    exact ⟨h1, hm⟩
  · rintro ⟨h1, hm⟩
    refine ⟨some c.1, h1, ?_⟩
    rw [seg_cons]
    exact ⟨rfl, q, hm, (seg_nil mem q q).mpr rfl⟩

theorem iterate_of_seg (l : forward_linked_list Item) (cs : List (Nat × Item))
    (h : seg l.mem l.m_head cs none) : iterate l = .ok (cs.map Prod.snd) :=
  iterate_from_of_seg l.mem cs l.m_head l.mem.length h (seg_length_le l.mem cs l.m_head h)

theorem seg_of_iterate (l : forward_linked_list Item) (xs : List Item)
    (h : iterate l = .ok xs) : ∃ cs, seg l.mem l.m_head cs none ∧ cs.map Prod.snd = xs :=
  seg_of_iterate_from l.mem l.mem.length l.m_head xs h

/-! ## The insertions at the two ends -/

theorem push_back_holds (l : forward_linked_list Item) (cs : List (Nat × Item)) (v : Item)
    (h : holds l cs) :
    ∃ l1, push_back l v = .ok l1 ∧ holds l1 (cs ++ [(l.mem.length, v)]) := by
  obtain ⟨hseg, htail⟩ := h
  rcases List.eq_nil_or_concat cs with hnil | ⟨cs0, c, hcs⟩
  · subst hnil
    rw [seg_nil] at hseg
    have ht : l.m_tail = none := htail
    refine ⟨⟨l.mem ++ [some (node.mk none v)], some l.mem.length, some l.mem.length⟩, ?_, ?_, ?_⟩
    · simp [push_back, new_node, ht]
    · simp [seg, List.getElem?_concat_length]
    · simp [last_addr]
  · rw [List.concat_eq_append] at hcs
    subst hcs
    have hnd := seg_nodup l.mem _ _ hseg
    rw [seg_snoc] at hseg
    obtain ⟨h0, hm⟩ := hseg
    have hlt : c.1 < l.mem.length := lt_of_cell l.mem c.1 _ hm
    have ht : l.m_tail = some c.1 := by simp [htail, last_addr]
    have hc0 : c.1 ∉ cs0.map Prod.fst := by
      rw [List.map_append, List.nodup_append] at hnd
      intro hin
      exact hnd.2.2 hin (by simp)
    have hm1 : (l.mem ++ [some ⟨none, v⟩])[c.1]? = some (some ⟨none, c.2⟩) := by
      rw [List.getElem?_append_left hlt]
      exact hm
    refine ⟨⟨(l.mem ++ [some (node.mk none v)]).set c.1 (some (node.mk (some l.mem.length) c.2)),
      l.m_head, some l.mem.length⟩, ?_, ?_, ?_⟩
    · simp [push_back, new_node, ht, load, write, hm1]
    · show seg _ l.m_head (cs0 ++ [c] ++ [(l.mem.length, v)]) none
      rw [seg_snoc, seg_snoc]
      refine ⟨⟨?_, ?_⟩, ?_⟩
      · exact seg_frame_set _ _ _ _ _ _ (seg_frame_append _ _ _ _ _ h0) hc0
      · rw [List.getElem?_set_self (by simp; omega)]
      · rw [List.getElem?_set_ne (by simp; omega)]
        exact List.getElem?_concat_length _ _
    · simp [last_addr]

theorem push_back_each_holds (items : List Item) (l : forward_linked_list Item)
    (cs : List (Nat × Item)) (h : holds l cs) :
    ∃ l1 cs1, push_back_each l items = .ok l1 ∧ holds l1 cs1 ∧
      cs1.map Prod.snd = cs.map Prod.snd ++ items := by
  induction items generalizing l cs with
  | nil => exact ⟨l, cs, rfl, h, by simp⟩
  | cons v vs ih =>
    obtain ⟨l1, hpb, hh⟩ := push_back_holds l cs v h
    obtain ⟨l2, cs2, hrec, hh2, hmap⟩ := ih l1 _ hh
    refine ⟨l2, cs2, ?_, hh2, ?_⟩
    · simp [push_back_each, hpb, hrec]
    · simp [hmap]

theorem holds_default_ctor : holds (default_ctor : forward_linked_list Item) [] := by
  simp [holds, default_ctor, seg, last_addr]

theorem push_front_seg (l : forward_linked_list Item) (cs : List (Nat × Item)) (v : Item)
    (h : seg l.mem l.m_head cs none) :
    ∃ l1, push_front l v = .ok l1 ∧
      seg l1.mem l1.m_head ((l.mem.length, v) :: cs) none ∧
      l1.m_tail = (match l.m_head with
        | none => some l.mem.length
        | some _ => l.m_tail) := by
  cases hh : l.m_head with
  | none =>
    rw [hh] at h
    cases cs with
    | cons c cs => simp [seg] at h
    | nil =>
      refine ⟨⟨l.mem ++ [some (node.mk none v)], some l.mem.length, some l.mem.length⟩, ?_, ?_, ?_⟩
      · simp [push_front, new_node, hh]
      · simp [seg, List.getElem?_concat_length]
      · rfl
  | some hd =>
    rw [hh] at h
    refine ⟨⟨(l.mem ++ [some (node.mk none v)]).set l.mem.length (some (node.mk (some hd) v)),
      some l.mem.length, l.m_tail⟩, ?_, ?_, ?_⟩
    · simp [push_front, new_node, hh, load, write, List.getElem?_concat_length]
    · rw [seg_cons]
      refine ⟨rfl, some hd, ?_, ?_⟩
      · rw [List.getElem?_set_self (by simp)]
      · apply seg_frame_set _ _ _ _ _ _ (seg_frame_append _ _ _ _ _ h)
        intro hin
        exact absurd (seg_lt l.mem cs (some hd) none h _ hin) (by simp)
    · rfl

theorem push_front_holds (l : forward_linked_list Item) (cs : List (Nat × Item)) (v : Item)
    (h : holds l cs) :
    ∃ l1, push_front l v = .ok l1 ∧ holds l1 ((l.mem.length, v) :: cs) := by
  obtain ⟨hseg, htail⟩ := h
  obtain ⟨l1, hpf, hs1, ht1⟩ := push_front_seg l cs v hseg
  refine ⟨l1, hpf, hs1, ?_⟩
  rw [ht1]
  cases cs with
  | nil =>
    rw [seg_nil] at hseg
    simp [hseg, last_addr]
  | cons c cs =>
    rw [seg_cons] at hseg
    rw [hseg.1, htail]
    simp [last_addr, List.getLast?_cons_cons]

theorem foldlM_push_back_holds (vs : List Item) (l : forward_linked_list Item)
    (cs : List (Nat × Item)) (h : holds l cs) :
    ∃ l1 cs1, List.foldlM push_back l vs = .ok l1 ∧ holds l1 cs1 ∧
      cs1.map Prod.snd = cs.map Prod.snd ++ vs := by
  induction vs generalizing l cs with
  | nil => exact ⟨l, cs, rfl, h, by simp⟩
  | cons v vs ih =>
    obtain ⟨l1, hpb, hh⟩ := push_back_holds l cs v h
    obtain ⟨l2, cs2, hrec, hh2, hmap⟩ := ih l1 _ hh
    refine ⟨l2, cs2, ?_, hh2, ?_⟩
    · rw [List.foldlM_cons, hpb]
      exact hrec
    · simp [hmap]

theorem foldlM_push_front_holds (vs : List Item) (l : forward_linked_list Item)
    (cs : List (Nat × Item)) (h : holds l cs) :
    ∃ l1 cs1, List.foldlM push_front l vs = .ok l1 ∧ holds l1 cs1 ∧
      cs1.map Prod.snd = vs.reverse ++ cs.map Prod.snd := by
  induction vs generalizing l cs with
  | nil => exact ⟨l, cs, rfl, h, by simp⟩
  | cons v vs ih =>
    obtain ⟨l1, hpf, hh⟩ := push_front_holds l cs v h
    obtain ⟨l2, cs2, hrec, hh2, hmap⟩ := ih l1 _ hh
    refine ⟨l2, cs2, ?_, hh2, ?_⟩
    · rw [List.foldlM_cons, hpf]
      exact hrec
    · simp [hmap]

/-! ## Lookup -/

theorem find_loop_of_seg [DecidableEq Item] (mem : store Item) (v : Item)
    (cs : List (Nat × Item)) (p : Option Nat) (fuel : Nat)
    (h : seg mem p cs none) (hf : cs.length ≤ fuel) :
    ∃ it, find_loop fuel mem ⟨p⟩ v = .ok it ∧
      (it = ⟨none⟩ ↔ v ∉ cs.map Prod.snd) ∧
      (v ∈ cs.map Prod.snd → ∃ i, advance mem i ⟨p⟩ = .ok it ∧
        (cs.map Prod.snd)[i]? = some v ∧ v ∉ (cs.map Prod.snd).take i ∧
        deref mem it = .ok v) := by
  induction cs generalizing p fuel with
  | nil =>
    rw [seg_nil] at h
    subst h
    refine ⟨⟨none⟩, ?_, by simp, by simp⟩
    cases fuel <;> rfl
  | cons c cs ih =>
    rw [seg_cons] at h
    obtain ⟨hp, nxt, hm, hs⟩ := h
    subst hp
    cases fuel with
    | zero => simp at hf
    | succ f =>
      have hf1 : cs.length ≤ f := by simpa using hf
      by_cases hcv : c.2 = v
      · refine ⟨⟨some c.1⟩, ?_, by simp [hcv], ?_⟩
        · simp [find_loop, deref, load, hm, hcv]
        · intro _
          exact ⟨0, rfl, by simp [hcv], by simp, by simp [deref, load, hm, hcv]⟩
      · obtain ⟨it, hfind, hend, hfirst⟩ := ih nxt f hs hf1
        have hvc : ¬ v = c.2 := fun e => hcv e.symm
        refine ⟨it, ?_, ?_, ?_⟩
        · simp [find_loop, deref, incr, load, hm, hcv, hfind]
        · rw [hend]
          simp [hvc]
        · intro hin
          have hin1 : v ∈ cs.map Prod.snd := by
            rw [List.map_cons, List.mem_cons] at hin
            rcases hin with e | e
            · exact absurd e hvc
            · exact e
          obtain ⟨i, hadv, hget, htake, hder⟩ := hfirst hin1
          refine ⟨i + 1, ?_, ?_, ?_, hder⟩
          · simp [advance, incr, load, hm, hadv]
          · simpa using hget
          · simp only [List.map_cons, List.take_succ_cons, List.mem_cons, not_or]
            exact ⟨hvc, htake⟩

/-! ## Positions inside a chain -/

theorem seg_split_at (mem : store Item) (cs : List (Nat × Item)) (p : Option Nat) (i : Nat)
    (h : seg mem p cs none) (hi : i < cs.length) :
    ∃ pre c post nxt, cs = pre ++ c :: post ∧ pre.length = i ∧
      seg mem p pre (some c.1) ∧ mem[c.1]? = some (some ⟨nxt, c.2⟩) ∧
      seg mem nxt post none ∧ advance mem i ⟨p⟩ = .ok ⟨some c.1⟩ := by
  have hcs : cs = cs.take i ++ cs[i] :: cs.drop (i + 1) := by
    rw [← List.drop_eq_getElem_cons hi, List.take_append_drop]
  have hlen : (cs.take i).length = i := by
    rw [List.length_take]
    omega
  rw [hcs, seg_append] at h
  obtain ⟨r, h1, h2⟩ := h
  rw [seg_cons] at h2
  obtain ⟨hr, nxt, hm, h3⟩ := h2
  subst hr
  refine ⟨cs.take i, cs[i], cs.drop (i + 1), nxt, hcs, hlen, h1, hm, h3, ?_⟩
  have hadv := advance_of_seg mem (cs.take i) p (some cs[i].1) h1
  rw [hlen] at hadv
  exact hadv

theorem take_drop_skip {α : Type} (pre : List α) (c d : α) (post : List α) :
    (pre ++ c :: d :: post).take (pre.length + 1) ++
      (pre ++ c :: d :: post).drop (pre.length + 2) = pre ++ c :: post := by
  induction pre with
  | nil => simp
  | cons a pre ih =>
    simp only [List.cons_append, List.length_cons, List.take_succ_cons, List.drop_succ_cons]
    rw [ih]

/-! ## Insertion and removal after a position -/

theorem insert_after_live (l : forward_linked_list Item) (a : Nat) (nxt : Option Nat)
    (x v : Item) (hm : l.mem[a]? = some (some ⟨nxt, x⟩)) :
    insert_after l ⟨some a⟩ v = .ok
      ⟨((l.mem ++ [some (node.mk none v)]).set l.mem.length (some (node.mk nxt v))).set a
          (some (node.mk (some l.mem.length) x)),
        l.m_head, l.m_tail⟩ := by
  have hlt : a < l.mem.length := lt_of_cell l.mem a _ hm
  have hne : l.mem.length ≠ a := by omega
  have hm1 : ∀ c : Option (node Item), (l.mem ++ [c])[a]? = some (some ⟨nxt, x⟩) := by
    intro c
    rw [List.getElem?_append_left hlt]
    exact hm
  simp [insert_after, const_iterator.Get, new_node, load, write, hm1,
    List.getElem?_concat_length, List.getElem?_set_ne hne]

theorem erase_after_live (l : forward_linked_list Item) (a b : Nat) (r : Option Nat)
    (x y : Item) (hab : a ≠ b) (ha : l.mem[a]? = some (some ⟨some b, x⟩))
    (hb : l.mem[b]? = some (some ⟨r, y⟩)) :
    erase_after l ⟨some a⟩ = .ok
      ⟨(l.mem.set a (some (node.mk r x))).set b none, l.m_head, l.m_tail⟩ := by
  simp [erase_after, const_iterator.Get, load, write, delete_node, ha, hb,
    List.getElem?_set_ne hab]

theorem erase_after_last (l : forward_linked_list Item) (a : Nat) (x : Item)
    (ha : l.mem[a]? = some (some ⟨none, x⟩)) : erase_after l ⟨some a⟩ = .ok l := by
  simp [erase_after, const_iterator.Get, load, delete_node, ha]

theorem erase_after_end (l : forward_linked_list Item) (a : Nat) (nxt : Option Nat)
    (x : Item) (hh : l.m_head = some a) (ha : l.mem[a]? = some (some ⟨nxt, x⟩)) :
    erase_after l ⟨none⟩ = .ok ⟨l.mem.set a none, nxt, l.m_tail⟩ := by
  simp [erase_after, const_iterator.Get, load, delete_node, ha, hh]

/-! ## Teardown -/

theorem clear_loop_of_seg (cs : List (Nat × Item)) (mem : store Item) (p : Option Nat)
    (fuel : Nat) (h : seg mem p cs none) (hf : cs.length ≤ fuel) :
    ∃ mem1, clear_loop fuel mem p = .ok mem1 ∧ mem1.length = mem.length ∧
      (∀ a ∈ cs.map Prod.fst, mem1[a]? = some none) ∧
      (∀ a, a ∉ cs.map Prod.fst → mem1[a]? = mem[a]?) := by
  induction cs generalizing mem p fuel with
  | nil =>
    rw [seg_nil] at h
    subst h
    refine ⟨mem, ?_, rfl, by simp, by simp⟩
    cases fuel <;> rfl
  | cons c cs ih =>
    have hnd := seg_nodup mem _ _ h
    rw [seg_cons] at h
    obtain ⟨hp, nxt, hm, hs⟩ := h
    subst hp
    rw [List.map_cons, List.nodup_cons] at hnd
    cases fuel with
    | zero => simp at hf
    | succ f =>
      have hf1 : cs.length ≤ f := by simpa using hf
      have hs1 : seg (mem.set c.1 none) nxt cs none :=
        seg_frame_set mem c.1 none cs nxt none hs hnd.1
      obtain ⟨mem1, hloop, hlen, hfreed, hkept⟩ := ih (mem.set c.1 none) nxt f hs1 hf1
      have hlt : c.1 < mem.length := lt_of_cell mem c.1 _ hm
      refine ⟨mem1, ?_, ?_, ?_, ?_⟩
      · simp [clear_loop, load, delete_node, hm, hloop]
      · rw [hlen, List.length_set]
      · intro a ha
        rw [List.map_cons, List.mem_cons] at ha
        rcases ha with ha | ha
        · subst ha
          rw [hkept c.1 hnd.1, List.getElem?_set_self hlt]
        · exact hfreed a ha
      · intro a ha
        rw [List.map_cons, List.mem_cons, not_or] at ha
        rw [hkept a ha.2, List.getElem?_set_ne (fun e => ha.1 e.symm)]

/-! ## Further facts on positions, splicing and the tail pointer -/

theorem seg_split_iterator (l : forward_linked_list Item) (cs : List (Nat × Item)) (i : Nat)
    (it : const_iterator) (h : seg l.mem l.m_head cs none) (hi : i < cs.length)
    (hit : iterator_at l i = .ok it) :
    ∃ pre c post nxt, cs = pre ++ c :: post ∧ pre.length = i ∧ it = ⟨some c.1⟩ ∧
      seg l.mem l.m_head pre (some c.1) ∧ l.mem[c.1]? = some (some ⟨nxt, c.2⟩) ∧
      seg l.mem nxt post none := by
  obtain ⟨pre, c, post, nxt, hcs, hlen, hpre, hm, hpost, hadv⟩ :=
    seg_split_at l.mem cs l.m_head i h hi
  refine ⟨pre, c, post, nxt, hcs, hlen, ?_, hpre, hm, hpost⟩
  have e : Except.ok it = (Except.ok ⟨some c.1⟩ : Except fault const_iterator) := by
    rw [← hit, ← hadv]
    rfl
  exact Except.ok.inj e

theorem take_drop_splice {α : Type} (pre : List α) (c v : α) (post : List α) :
    (pre ++ c :: post).take (pre.length + 1) ++ v :: (pre ++ c :: post).drop (pre.length + 1) =
      pre ++ c :: v :: post := by
  induction pre with
  | nil => simp
  | cons a pre ih =>
    simp only [List.cons_append, List.length_cons, List.take_succ_cons, List.drop_succ_cons]
    rw [ih]

theorem insert_after_seg (l : forward_linked_list Item) (pre post : List (Nat × Item))
    (c : Nat × Item) (v : Item) (h : seg l.mem l.m_head (pre ++ c :: post) none) :
    ∃ l1, insert_after l ⟨some c.1⟩ v = .ok l1 ∧
      seg l1.mem l1.m_head (pre ++ c :: (l.mem.length, v) :: post) none ∧
      l1.m_tail = l.m_tail := by
  have hnd := seg_nodup l.mem _ _ h
  rw [seg_append] at h
  obtain ⟨q, hpre, hq⟩ := h
  rw [seg_cons] at hq
  obtain ⟨hq1, nxt, hm, hpost⟩ := hq
  subst hq1
  simp only [List.map_append, List.map_cons, List.nodup_append, List.nodup_cons,
    List.disjoint_cons_right] at hnd
  obtain ⟨_, ⟨hcpost, _⟩, hcpre, _⟩ := hnd
  have hnpre : l.mem.length ∉ pre.map Prod.fst := fun hin =>
    Nat.lt_irrefl _ (seg_lt l.mem pre _ _ hpre _ hin)
  have hnpost : l.mem.length ∉ post.map Prod.fst := fun hin =>
    Nat.lt_irrefl _ (seg_lt l.mem post _ _ hpost _ hin)
  have hlt : c.1 < l.mem.length := lt_of_cell l.mem c.1 _ hm
  have hne : c.1 ≠ l.mem.length := by omega
  refine ⟨_, insert_after_live l c.1 nxt c.2 v hm, ?_, rfl⟩
  show seg (((l.mem ++ [some (node.mk none v)]).set l.mem.length
      (some (node.mk nxt v))).set c.1 (some (node.mk (some l.mem.length) c.2))) l.m_head
      (pre ++ c :: (l.mem.length, v) :: post) none
  rw [seg_append]
  refine ⟨some c.1, ?_, ?_⟩
  · exact seg_frame_set _ _ _ _ _ _
      (seg_frame_set _ _ _ _ _ _ (seg_frame_append _ _ _ _ _ hpre) hnpre) hcpre
  · rw [seg_cons]
    refine ⟨rfl, some l.mem.length, List.getElem?_set_self (by simp; omega), ?_⟩
    rw [seg_cons]
    refine ⟨rfl, nxt, ?_, ?_⟩
    · show (((l.mem ++ [some (node.mk none v)]).set l.mem.length
        (some (node.mk nxt v))).set c.1 (some (node.mk (some l.mem.length) c.2)))[l.mem.length]? =
        some (some ⟨nxt, v⟩)
      rw [List.getElem?_set_ne hne, List.getElem?_set_self (by simp)]
    · exact seg_frame_set _ _ _ _ _ _
        (seg_frame_set _ _ _ _ _ _ (seg_frame_append _ _ _ _ _ hpost) hnpost) hcpost

theorem holds_facts (l : forward_linked_list Item) (cs : List (Nat × Item)) (h : holds l cs) :
    iterate l = .ok (cs.map Prod.snd) ∧ (l.m_head = none ↔ l.m_tail = none) ∧
      (l.m_head = none ↔ cs = []) ∧
      (cs = [] ∨ (iterator_at l (cs.length - 1) = .ok ⟨l.m_tail⟩ ∧
        incr l.mem ⟨l.m_tail⟩ = .ok ⟨none⟩)) := by
  obtain ⟨hseg, htail⟩ := h
  refine ⟨iterate_of_seg l cs hseg, ?_⟩
  rcases List.eq_nil_or_concat cs with hnil | ⟨cs0, c, hcs⟩
  · subst hnil
    rw [seg_nil] at hseg
    have ht : l.m_tail = none := htail
    simp [hseg, ht]
  · rw [List.concat_eq_append] at hcs
    subst hcs
    have ht : l.m_tail = some c.1 := by simp [htail, last_addr]
    have hhead : l.m_head ≠ none := by
      cases cs0 with
      | nil =>
        rw [List.nil_append, seg_cons] at hseg
        rw [hseg.1]
        simp
      | cons d ds =>
        rw [List.cons_append, seg_cons] at hseg
        rw [hseg.1]
        simp
    rw [seg_snoc] at hseg
    obtain ⟨h0, hm⟩ := hseg
    refine ⟨by simp [hhead, ht], by simp [hhead], Or.inr ⟨?_, ?_⟩⟩
    · have hadv := advance_of_seg l.mem cs0 l.m_head (some c.1) h0
      rw [ht]
      simp only [iterator_at, forward_linked_list.begin_, List.length_append,
        List.length_singleton, Nat.add_sub_cancel]
      exact hadv
    · rw [ht]
      simp only [incr, load, hm]

theorem clear_holds (l : forward_linked_list Item) (cs : List (Nat × Item)) (h : holds l cs) :
    ∃ l1, clear l = .ok l1 ∧ holds l1 [] := by
  obtain ⟨mem1, hloop, _, _, _⟩ :=
    clear_loop_of_seg cs l.mem l.m_head l.mem.length h.1 (seg_length_le l.mem cs l.m_head h.1)
  refine ⟨⟨mem1, none, none⟩, by simp [clear, hloop], ?_⟩
  simp [holds, seg, last_addr]

theorem end_ops_hold (ops : List (end_op Item)) (l : forward_linked_list Item)
    (cs : List (Nat × Item)) (h : holds l cs) :
    ∃ l1 cs1, List.foldlM end_op.run l ops = .ok l1 ∧ holds l1 cs1 := by
  induction ops generalizing l cs with
  | nil => exact ⟨l, cs, rfl, h⟩
  | cons op ops ih =>
    have hstep : ∃ l1 cs1, end_op.run l op = .ok l1 ∧ holds l1 cs1 := by
      cases op with
      | push_front item =>
        obtain ⟨l1, h1, hh⟩ := push_front_holds l cs item h
        exact ⟨l1, _, h1, hh⟩
      | push_back item =>
        obtain ⟨l1, h1, hh⟩ := push_back_holds l cs item h
        exact ⟨l1, _, h1, hh⟩
      | clear =>
        obtain ⟨l1, h1, hh⟩ := clear_holds l cs h
        exact ⟨l1, _, h1, hh⟩
    obtain ⟨l1, cs1, h1, hh1⟩ := hstep
    obtain ⟨l2, cs2, h2, hh2⟩ := ih l1 cs1 hh1
    refine ⟨l2, cs2, ?_, hh2⟩
    rw [List.foldlM_cons, h1]
    exact h2

/-! ## The claims -/

/-- C1: for every finite sequence `S`, the initializer-list constructor
succeeds on `S`, and iterating the constructed list from `begin()` to `end()`
yields exactly `S`, in the same order (so also for `[]`, `[1]`, `[1,2,3]`). -/
theorem initializer_list_ctor_iterate (S : List Item) :
    ∃ l, initializer_list_ctor S = .ok l ∧ iterate l = .ok S := by
  obtain ⟨l, cs, hctor, hh, hmap⟩ := push_back_each_holds S default_ctor [] holds_default_ctor
  refine ⟨l, hctor, ?_⟩
  rw [iterate_of_seg l cs hh.1, hmap]
  simp

/-- C2: for every sequence `vs`, the calls `push_back(v1)`, ..., `push_back(vn)`
on a default-constructed list all succeed, and iterating the result front to
back yields `v1, ..., vn`, the order pushed. -/
theorem push_back_sequence_iterate (vs : List Item) :
    ∃ l, List.foldlM push_back default_ctor vs = .ok l ∧ iterate l = .ok vs := by
  obtain ⟨l, cs, hfold, hh, hmap⟩ := foldlM_push_back_holds vs default_ctor [] holds_default_ctor
  refine ⟨l, hfold, ?_⟩
  rw [iterate_of_seg l cs hh.1, hmap]
  simp

/-- C3: for every sequence `vs`, the calls `push_front(v1)`, ...,
`push_front(vn)` on a default-constructed list all succeed, and iterating the
result front to back yields `vn, ..., v1`, the reverse of the order pushed. -/
theorem push_front_sequence_iterate (vs : List Item) :
    ∃ l, List.foldlM push_front default_ctor vs = .ok l ∧ iterate l = .ok vs.reverse := by
  obtain ⟨l, cs, hfold, hh, hmap⟩ :=
    foldlM_push_front_holds vs default_ctor [] holds_default_ctor
  refine ⟨l, hfold, ?_⟩
  rw [iterate_of_seg l cs hh.1, hmap]
  simp

/-- C4: on a list that iterates as `xs`, `find(v)` returns an iterator; it is
the end iterator if and only if no element of `xs` equals `v`; otherwise it is
the iterator at the first index `i` (from head) whose element equals `v`, and
it dereferences to `v`. -/
theorem find_first_match [DecidableEq Item] (l : forward_linked_list Item)
    (xs : List Item) (v : Item) (h : iterate l = .ok xs) :
    ∃ it, find l v = .ok it ∧
      (it = l.end_ ↔ v ∉ xs) ∧
      (v ∈ xs → ∃ i, iterator_at l i = .ok it ∧ xs[i]? = some v ∧ v ∉ xs.take i ∧
        deref l.mem it = .ok v) := by
  obtain ⟨cs, hseg, hmap⟩ := seg_of_iterate l xs h
  subst hmap
  exact find_loop_of_seg l.mem v cs l.m_head l.mem.length hseg
    (seg_length_le l.mem cs l.m_head hseg)

/-- Witness of C4 on the list built from `{ 10, 20, 30 }`, searched for 20. -/
theorem find_first_match_witness :
    initializer_list_ctor [10, 20, 30] = .ok sample ∧ iterate sample = .ok [10, 20, 30] ∧
    ∃ it, find sample 20 = .ok it ∧
      (it = sample.end_ ↔ 20 ∉ [10, 20, 30]) ∧
      (20 ∈ [10, 20, 30] → ∃ i, iterator_at sample i = .ok it ∧
        [10, 20, 30][i]? = some 20 ∧ 20 ∉ [10, 20, 30].take i ∧
        deref sample.mem it = .ok 20) :=
  ⟨rfl, rfl, find_first_match sample [10, 20, 30] 20 rfl⟩

/-- C5: on a list that iterates as `xs`, for the iterator `it` at an index
`i < xs.length` (a node of the list) and every value `v`, `insert_after(it, v)`
succeeds, and afterwards `++it` succeeds and gives an iterator that is not the
end iterator and dereferences to `v`. -/
theorem insert_after_then_advance (l : forward_linked_list Item) (xs : List Item) (i : Nat)
    (it : const_iterator) (v : Item) (h : iterate l = .ok xs) (hi : i < xs.length)
    (hit : iterator_at l i = .ok it) :
    ∃ l1 it1, insert_after l it v = .ok l1 ∧ incr l1.mem it = .ok it1 ∧
      it1 ≠ l1.end_ ∧ deref l1.mem it1 = .ok v := by
  obtain ⟨cs, hseg, hmap⟩ := seg_of_iterate l xs h
  subst hmap
  rw [List.length_map] at hi
  obtain ⟨pre, c, post, nxt, _, _, _, hm, _, hadv⟩ := seg_split_at l.mem cs l.m_head i hseg hi
  have hit1 : it = ⟨some c.1⟩ := by
    have e : Except.ok it = (Except.ok ⟨some c.1⟩ : Except fault const_iterator) := by
      rw [← hit, ← hadv]
      rfl
    exact Except.ok.inj e
  subst hit1
  have hlt : c.1 < l.mem.length := lt_of_cell l.mem c.1 _ hm
  have hne : c.1 ≠ l.mem.length := by omega
  have hcell : (((l.mem ++ [some (node.mk none v)]).set l.mem.length
      (some (node.mk nxt v))).set c.1 (some (node.mk (some l.mem.length) c.2)))[c.1]? =
      some (some ⟨some l.mem.length, c.2⟩) :=
    List.getElem?_set_self (by simp; omega)
  have hnew : (((l.mem ++ [some (node.mk none v)]).set l.mem.length
      (some (node.mk nxt v))).set c.1 (some (node.mk (some l.mem.length) c.2)))[l.mem.length]? =
      some (some ⟨nxt, v⟩) := by
    rw [List.getElem?_set_ne hne, List.getElem?_set_self (by simp)]
  refine ⟨_, ⟨some l.mem.length⟩, insert_after_live l c.1 nxt c.2 v hm, ?_, ?_, ?_⟩
  · simp only [incr, load, hcell]
  · simp [forward_linked_list.end_]
  · simp only [deref, load, hnew]

/-- Witness of C5: inserting 7 after the node at index 1 of `sample`. -/
theorem insert_after_then_advance_witness :
    iterate sample = .ok [10, 20, 30] ∧ 1 < [10, 20, 30].length ∧
    iterator_at sample 1 = .ok ⟨some 1⟩ ∧
    ∃ l1 it1, insert_after sample ⟨some 1⟩ 7 = .ok l1 ∧ incr l1.mem ⟨some 1⟩ = .ok it1 ∧
      it1 ≠ l1.end_ ∧ deref l1.mem it1 = .ok 7 :=
  ⟨rfl, by decide, rfl,
    insert_after_then_advance sample [10, 20, 30] 1 ⟨some 1⟩ 7 rfl (by decide) rfl⟩

/-- C6: on a list that iterates as `xs = x0..x(n-1)`, for the iterator `it` at
an index `i` with `i + 1 < n`, `erase_after(it)` succeeds and the list then
iterates as `x0..xi, x(i+2)..x(n-1)`: the node at index `i + 1` is gone and
the number of elements reachable from head is smaller by exactly one. -/
theorem erase_after_removes_successor (l : forward_linked_list Item) (xs : List Item)
    (i : Nat) (it : const_iterator) (h : iterate l = .ok xs) (hi : i + 1 < xs.length)
    (hit : iterator_at l i = .ok it) :
    ∃ l1 ys, erase_after l it = .ok l1 ∧ iterate l1 = .ok ys ∧
      ys = xs.take (i + 1) ++ xs.drop (i + 2) ∧ ys.length + 1 = xs.length := by
  obtain ⟨cs, hseg, hmap⟩ := seg_of_iterate l xs h
  subst hmap
  rw [List.length_map] at hi
  have hnd := seg_nodup l.mem cs l.m_head hseg
  obtain ⟨pre, c, post, nxt, hcs, hlen, hpre, hm, hpost, hadv⟩ :=
    seg_split_at l.mem cs l.m_head i hseg (by omega)
  have hit1 : it = ⟨some c.1⟩ := by
    have e : Except.ok it = (Except.ok ⟨some c.1⟩ : Except fault const_iterator) := by
      rw [← hit, ← hadv]
      rfl
    exact Except.ok.inj e
  subst hit1
  cases post with
  | nil =>
    rw [hcs] at hi
    simp at hi
    omega
  | cons d post =>
    rw [seg_cons] at hpost
    obtain ⟨hnxt, r, hmd, hrest⟩ := hpost
    subst hnxt
    subst hcs
    simp only [List.map_append, List.map_cons, List.nodup_append, List.nodup_cons,
      List.mem_cons, not_or, List.disjoint_cons_right] at hnd
    obtain ⟨_, ⟨⟨hcd, hcpost⟩, hdpost, _⟩, hcpre, hdpre, _⟩ := hnd
    have hltc : c.1 < l.mem.length := lt_of_cell l.mem c.1 _ hm
    have hseg1 : seg ((l.mem.set c.1 (some (node.mk r c.2))).set d.1 none) l.m_head
        (pre ++ c :: post) none := by
      rw [seg_append]
      refine ⟨some c.1, ?_, ?_⟩
      · exact seg_frame_set _ _ _ _ _ _ (seg_frame_set _ _ _ _ _ _ hpre hcpre) hdpre
      · rw [seg_cons]
        refine ⟨rfl, r, ?_, ?_⟩
        · rw [List.getElem?_set_ne (fun e => hcd e.symm), List.getElem?_set_self hltc]
        · exact seg_frame_set _ _ _ _ _ _ (seg_frame_set _ _ _ _ _ _ hrest hcpost) hdpost
    refine ⟨⟨(l.mem.set c.1 (some (node.mk r c.2))).set d.1 none, l.m_head, l.m_tail⟩,
      (pre ++ c :: post).map Prod.snd, erase_after_live l c.1 d.1 r c.2 d.2 hcd hm hmd,
      iterate_of_seg _ _ hseg1, ?_, ?_⟩
    · have hskip := take_drop_skip (pre.map Prod.snd) c.2 d.2 (post.map Prod.snd)
      rw [List.length_map, hlen] at hskip
      simp only [List.map_append, List.map_cons]
      exact hskip.symm
    · simp only [List.length_append, List.length_cons, List.length_map]
      omega

/-- Witness of C6: erasing after the node at index 0 of `sample`. -/
theorem erase_after_removes_successor_witness :
    iterate sample = .ok [10, 20, 30] ∧ 0 + 1 < [10, 20, 30].length ∧
    iterator_at sample 0 = .ok ⟨some 0⟩ ∧
    ∃ l1 ys, erase_after sample ⟨some 0⟩ = .ok l1 ∧ iterate l1 = .ok ys ∧
      ys = [10, 20, 30].take (0 + 1) ++ [10, 20, 30].drop (0 + 2) ∧
      ys.length + 1 = [10, 20, 30].length :=
  ⟨rfl, by decide, rfl,
    erase_after_removes_successor sample [10, 20, 30] 0 ⟨some 0⟩ rfl (by decide) rfl⟩

/-- C7: on a non-empty list that iterates as `xs`, for the iterator `it` at the
last index (the node with no successor), `erase_after(it)` does not fail and
returns the state it was given: store, head and tail, and so the element
sequence, are unchanged. -/
theorem erase_after_last_node_noop (l : forward_linked_list Item) (xs : List Item)
    (it : const_iterator) (h : iterate l = .ok xs) (hne : xs ≠ [])
    (hit : iterator_at l (xs.length - 1) = .ok it) :
    incr l.mem it = .ok l.end_ ∧ erase_after l it = .ok l := by
  obtain ⟨cs, hseg, hmap⟩ := seg_of_iterate l xs h
  subst hmap
  have hpos : 0 < cs.length := by
    cases cs with
    | nil => simp at hne
    | cons c cs => simp
  rw [List.length_map] at hit
  obtain ⟨pre, c, post, nxt, hcs, hlen, _, hm, hpost, hadv⟩ :=
    seg_split_at l.mem cs l.m_head (cs.length - 1) hseg (by omega)
  have hit1 : it = ⟨some c.1⟩ := by
    have e : Except.ok it = (Except.ok ⟨some c.1⟩ : Except fault const_iterator) := by
      rw [← hit, ← hadv]
      rfl
    exact Except.ok.inj e
  subst hit1
  cases post with
  | cons d post =>
    have hl := congrArg List.length hcs
    simp at hl
    omega
  | nil =>
    rw [seg_nil] at hpost
    subst hpost
    exact ⟨by simp [incr, load, hm, forward_linked_list.end_], erase_after_last l c.1 c.2 hm⟩

/-- Witness of C7: erasing after the last node (index 2) of `sample`. -/
theorem erase_after_last_node_noop_witness :
    iterate sample = .ok [10, 20, 30] ∧ [10, 20, 30] ≠ [] ∧
    iterator_at sample ([10, 20, 30].length - 1) = .ok ⟨some 2⟩ ∧
    incr sample.mem ⟨some 2⟩ = .ok sample.end_ ∧ erase_after sample ⟨some 2⟩ = .ok sample :=
  ⟨rfl, by decide, rfl,
    erase_after_last_node_noop sample [10, 20, 30] ⟨some 2⟩ rfl (by decide) rfl⟩

/-- C8: on a non-empty list that iterates as `x :: xs`, `pop_front()` is the
call `erase_after(end())`, it succeeds, and the resulting list iterates as
`xs`: exactly the head element is removed, the rest keeps its order. -/
theorem pop_front_removes_head (l : forward_linked_list Item) (x : Item) (xs : List Item)
    (h : iterate l = .ok (x :: xs)) :
    pop_front l = erase_after l l.end_ ∧
      ∃ l1, pop_front l = .ok l1 ∧ iterate l1 = .ok xs := by
  refine ⟨rfl, ?_⟩
  obtain ⟨cs, hseg, hmap⟩ := seg_of_iterate l (x :: xs) h
  cases cs with
  | nil => simp at hmap
  | cons c cs =>
    have hnd := seg_nodup l.mem _ _ hseg
    rw [List.map_cons, List.nodup_cons] at hnd
    rw [seg_cons] at hseg
    obtain ⟨hh, nxt, hm, hrest⟩ := hseg
    rw [List.map_cons, List.cons.injEq] at hmap
    refine ⟨⟨l.mem.set c.1 none, nxt, l.m_tail⟩, erase_after_end l c.1 nxt c.2 hh hm, ?_⟩
    rw [← hmap.2]
    exact iterate_of_seg _ cs (seg_frame_set l.mem c.1 none cs nxt none hrest hnd.1)

/-- Witness of C8: `pop_front()` on `sample`. -/
theorem pop_front_removes_head_witness :
    iterate sample = .ok (10 :: [20, 30]) ∧
    pop_front sample = erase_after sample sample.end_ ∧
    ∃ l1, pop_front sample = .ok l1 ∧ iterate l1 = .ok [20, 30] :=
  ⟨rfl, pop_front_removes_head sample 10 [20, 30] rfl⟩

/-- C9: on every list whose chain from head iterates (as some `xs`, empty or
not), `clear()` succeeds and leaves an empty list: `begin() == end()`, head
and tail are both none, iteration yields nothing, and every node of the chain
has been deleted; on a list that is already in that empty state (head and tail
both none) `clear()` returns the state unchanged. -/
theorem clear_gives_empty (l : forward_linked_list Item) (xs : List Item)
    (h : iterate l = .ok xs) :
    ∃ l1, clear l = .ok l1 ∧ l1.begin_ = l1.end_ ∧ l1.m_head = none ∧ l1.m_tail = none ∧
      iterate l1 = .ok [] ∧ (l.m_head = none → l.m_tail = none → l1 = l) := by
  obtain ⟨cs, hseg, _⟩ := seg_of_iterate l xs h
  obtain ⟨mem1, hloop, _, _, _⟩ :=
    clear_loop_of_seg cs l.mem l.m_head l.mem.length hseg (seg_length_le l.mem cs l.m_head hseg)
  refine ⟨⟨mem1, none, none⟩, by simp [clear, hloop], rfl, rfl, rfl, ?_, ?_⟩
  · exact iterate_of_seg ⟨mem1, none, none⟩ [] ((seg_nil mem1 none none).mpr rfl)
  · intro hh ht
    rw [hh] at hloop
    have hmem : mem1 = l.mem := by
      cases hlen : l.mem.length with
      | zero =>
        rw [hlen] at hloop
        exact (Except.ok.inj hloop).symm
      | succ n =>
        rw [hlen] at hloop
        exact (Except.ok.inj hloop).symm
    cases l with
    | mk mem hd tl =>
      simp only at hh ht hmem
      rw [hh, ht, hmem]

/-- Witness of C9: `clear()` on `sample` and on the default-constructed list. -/
theorem clear_gives_empty_witness :
    (iterate sample = .ok [10, 20, 30] ∧
      ∃ l1, clear sample = .ok l1 ∧ l1.begin_ = l1.end_ ∧ l1.m_head = none ∧
        l1.m_tail = none ∧ iterate l1 = .ok [] ∧
        (sample.m_head = none → sample.m_tail = none → l1 = sample)) ∧
    (iterate (default_ctor : forward_linked_list Nat) = .ok [] ∧
      ∃ l1, clear (default_ctor : forward_linked_list Nat) = .ok l1 ∧ l1.begin_ = l1.end_ ∧
        l1.m_head = none ∧ l1.m_tail = none ∧ iterate l1 = .ok [] ∧
        ((default_ctor : forward_linked_list Nat).m_head = none →
          (default_ctor : forward_linked_list Nat).m_tail = none → l1 = default_ctor)) :=
  ⟨⟨rfl, clear_gives_empty sample [10, 20, 30] rfl⟩,
    ⟨rfl, clear_gives_empty default_ctor [] rfl⟩⟩

/-- C10, evaluated at `push_back(1); pop_front()` on a default-constructed
list: both calls succeed and the list is empty afterwards (head is none,
iteration yields nothing), but tail is not none: it still holds address 0, the
node that `pop_front` deleted. -/
theorem pop_front_leaves_stale_tail :
    ∃ l1 l2 : forward_linked_list Nat,
      push_back default_ctor 1 = .ok l1 ∧ pop_front l1 = .ok l2 ∧
      l2.m_head = none ∧ iterate l2 = .ok [] ∧ l2.m_tail = some 0 ∧
      l2.mem[0]? = some none :=
  ⟨⟨[some ⟨none, 1⟩], some 0, some 0⟩, ⟨[none], none, some 0⟩, rfl, rfl, rfl, rfl, rfl, rfl⟩

/-- C11, evaluated at `push_back(1); insert_after(begin(), 2)` on a
default-constructed list: both calls succeed and the list iterates as `1, 2`,
whose last node is the one at address 1 (index 1); but tail still holds
address 0, the first node, and the link of that node is not none. -/
theorem insert_after_leaves_tail_behind :
    ∃ l1 l2 : forward_linked_list Nat,
      push_back default_ctor 1 = .ok l1 ∧ insert_after l1 l1.begin_ 2 = .ok l2 ∧
      iterate l2 = .ok [1, 2] ∧ iterator_at l2 1 = .ok ⟨some 1⟩ ∧
      incr l2.mem ⟨some 1⟩ = .ok l2.end_ ∧
      l2.m_tail = some 0 ∧ incr l2.mem ⟨l2.m_tail⟩ = .ok ⟨some 1⟩ :=
  ⟨_, _, rfl, rfl, rfl, rfl, rfl, rfl, rfl⟩

/-- C12, evaluated at `push_back(1); insert_after(begin(), 2); push_back(3)` on
a default-constructed list: before the last call the list iterates as `1, 2`;
the call succeeds, and afterwards the list iterates as `1, 3`, not `1, 2, 3`:
the new node was linked behind the stale tail (the node of 1). -/
theorem push_back_after_insert_drops_element :
    ∃ l1 l2 l3 : forward_linked_list Nat,
      push_back default_ctor 1 = .ok l1 ∧ insert_after l1 l1.begin_ 2 = .ok l2 ∧
      iterate l2 = .ok [1, 2] ∧ push_back l2 3 = .ok l3 ∧ iterate l3 = .ok [1, 3] :=
  ⟨_, _, _, rfl, rfl, rfl, rfl, rfl⟩

/-- C13, evaluated at the list built from `{ 10, 20, 30 }` and the iterator at
its last node (address 2, where tail points): `insert_after(it, 7)` succeeds,
the list iterates as `10, 20, 30, 7` with the new node at address 3 as last
node, and tail still holds address 2, not the new node. -/
theorem insert_after_at_tail_keeps_old_tail :
    initializer_list_ctor [10, 20, 30] = .ok sample ∧ sample.m_tail = some 2 ∧
    iterator_at sample 2 = .ok ⟨some 2⟩ ∧ incr sample.mem ⟨some 2⟩ = .ok sample.end_ ∧
    ∃ l1, insert_after sample ⟨some 2⟩ 7 = .ok l1 ∧ iterate l1 = .ok [10, 20, 30, 7] ∧
      incr l1.mem ⟨some 2⟩ = .ok ⟨some 3⟩ ∧ incr l1.mem ⟨some 3⟩ = .ok l1.end_ ∧
      l1.m_tail = some 2 ∧ l1.m_tail ≠ some 3 :=
  ⟨rfl, rfl, rfl, rfl, _, rfl, rfl, rfl, rfl, rfl, by decide⟩

/-- C17: the scenario of `main` runs without fault and its seven printed
sequences are `[1,2,3]` (as built), `[1,2,4,3]` (after `insert_after(find(2), 4)`),
`[1,4,3]` (after `erase_after(find(1))`), `[5,1,4,3,6]` (after `push_front(5)`
and `push_back(6)`), `[1,4,3,6]` (after `pop_front()`), `[]` (after `clear()`),
and `[2,4,6]` for the second, const list. -/
theorem main_prints_scenario :
    main = .ok [[1, 2, 3], [1, 2, 4, 3], [1, 4, 3], [5, 1, 4, 3, 6], [1, 4, 3, 6], [],
      [2, 4, 6]] :=
  rfl

/-- C18, evaluated at `push_back(1); insert_after(begin(), 2); push_back(3)`
followed by the destructor: every call succeeds, three nodes were allocated
(addresses 0, 1, 2), and after the destructor the nodes at 0 and 2 are
released while the node at address 1, holding 2, is still live: it is leaked. -/
theorem destructor_leaks_inserted_node :
    ∃ l1 l2 l3 l4 : forward_linked_list Nat,
      push_back default_ctor 1 = .ok l1 ∧ insert_after l1 l1.begin_ 2 = .ok l2 ∧
      push_back l2 3 = .ok l3 ∧ destructor l3 = .ok l4 ∧
      l4.mem = [none, some ⟨none, 2⟩, none] :=
  ⟨_, _, _, _, rfl, rfl, rfl, rfl, rfl⟩

/-- C14: on a list that iterates as `xs`, for every valid position (the end
iterator when `xs` is not empty, or the iterator at an index `i < xs.length`),
`erase_after` succeeds and tail afterwards equals tail before; the removed
node is released, so when it was the node tail points to, tail still holds
the address of that released node. -/
theorem erase_after_keeps_tail (l : forward_linked_list Item) (xs : List Item)
    (it : const_iterator) (h : iterate l = .ok xs)
    (hpos : (it = l.end_ ∧ xs ≠ []) ∨ ∃ i, i < xs.length ∧ iterator_at l i = .ok it) :
    ∃ l1, erase_after l it = .ok l1 ∧ l1.m_tail = l.m_tail ∧
      ∀ t, position_after l it = .ok ⟨some t⟩ →
        l1.mem[t]? = some none ∧ (l.m_tail = some t → l1.m_tail = some t) := by
  obtain ⟨cs, hseg, hmap⟩ := seg_of_iterate l xs h
  subst hmap
  have hnd := seg_nodup l.mem cs l.m_head hseg
  rcases hpos with ⟨hend, hne⟩ | ⟨i, hi, hit⟩
  · subst hend
    cases cs with
    | nil => simp at hne
    | cons c cs =>
      rw [seg_cons] at hseg
      obtain ⟨hh, nxt, hm, _⟩ := hseg
      have hlt : c.1 < l.mem.length := lt_of_cell l.mem c.1 _ hm
      refine ⟨_, erase_after_end l c.1 nxt c.2 hh hm, rfl, ?_⟩
      intro t ht
      have htc : t = c.1 := by
        simp only [position_after, const_iterator.Get, forward_linked_list.end_,
          forward_linked_list.begin_, hh, Except.ok.injEq, const_iterator.mk.injEq,
          Option.some.injEq] at ht
        exact ht.symm
      subst htc
      exact ⟨List.getElem?_set_self hlt, fun e => e⟩
  · rw [List.length_map] at hi
    obtain ⟨pre, c, post, nxt, hcs, _, hitc, _, hm, hpost⟩ :=
      seg_split_iterator l cs i it hseg hi hit
    subst hitc
    cases post with
    | nil =>
      rw [seg_nil] at hpost
      subst hpost
      refine ⟨l, erase_after_last l c.1 c.2 hm, rfl, ?_⟩
      intro t ht
      simp [position_after, const_iterator.Get, incr, load, hm] at ht
    | cons d post =>
      rw [seg_cons] at hpost
      obtain ⟨hnxt, r, hmd, _⟩ := hpost
      subst hnxt
      subst hcs
      simp only [List.map_append, List.map_cons, List.nodup_append, List.nodup_cons,
        List.mem_cons, not_or] at hnd
      have hcd : c.1 ≠ d.1 := hnd.2.1.1.1
      have hltd : d.1 < l.mem.length := lt_of_cell l.mem d.1 _ hmd
      refine ⟨_, erase_after_live l c.1 d.1 r c.2 d.2 hcd hm hmd, rfl, ?_⟩
      intro t ht
      have htd : t = d.1 := by
        simp only [position_after, const_iterator.Get, incr, load, hm, Except.ok.injEq,
          const_iterator.mk.injEq, Option.some.injEq] at ht
        exact ht.symm
      subst htd
      exact ⟨List.getElem?_set_self (by rw [List.length_set]; exact hltd), fun e => e⟩

/-- Witness of C14: erasing after the node at index 1 of `sample` removes the
node at address 2, the one tail points to. -/
theorem erase_after_keeps_tail_witness :
    iterate sample = .ok [10, 20, 30] ∧
    ((⟨some 1⟩ : const_iterator) = sample.end_ ∧ [10, 20, 30] ≠ [] ∨
      ∃ i, i < [10, 20, 30].length ∧ iterator_at sample i = .ok ⟨some 1⟩) ∧
    position_after sample ⟨some 1⟩ = .ok ⟨some 2⟩ ∧ sample.m_tail = some 2 ∧
    ∃ l1, erase_after sample ⟨some 1⟩ = .ok l1 ∧ l1.m_tail = sample.m_tail ∧
      ∀ t, position_after sample ⟨some 1⟩ = .ok ⟨some t⟩ →
        l1.mem[t]? = some none ∧ (sample.m_tail = some t → l1.m_tail = some t) :=
  ⟨rfl, Or.inr ⟨1, by decide, rfl⟩, rfl, rfl,
    erase_after_keeps_tail sample [10, 20, 30] ⟨some 1⟩ rfl (Or.inr ⟨1, by decide, rfl⟩)⟩

/-- C15: `pop_front()` and `erase_after(end())` fail on the assertion
`m_head != nullptr` if and only if head is none; on a non-empty list (one that
iterates as `x :: xs`) both succeed, with the same result. -/
theorem pop_front_fails_iff_empty (l : forward_linked_list Item) :
    (pop_front l = .error .assertion ↔ l.m_head = none) ∧
    (erase_after l l.end_ = .error .assertion ↔ l.m_head = none) ∧
    (∀ x xs, iterate l = .ok (x :: xs) →
      ∃ l1, pop_front l = .ok l1 ∧ erase_after l l.end_ = .ok l1) := by
  have hiff : erase_after l ⟨none⟩ = .error .assertion ↔ l.m_head = none := by
    cases hh : l.m_head with
    | none => simp [erase_after, const_iterator.Get, hh]
    | some hd =>
      simp only [erase_after, const_iterator.Get, hh, load, delete_node]
      cases hm : l.mem[hd]? with
      | none => simp
      | some cell =>
        cases cell with
        | none => simp
        | some nd => simp
  refine ⟨hiff, hiff, ?_⟩
  intro x xs h
  obtain ⟨cs, hseg, hmap⟩ := seg_of_iterate l (x :: xs) h
  cases cs with
  | nil => simp at hmap
  | cons c cs =>
    rw [seg_cons] at hseg
    obtain ⟨hh, nxt, hm, _⟩ := hseg
    exact ⟨_, erase_after_end l c.1 nxt c.2 hh hm, erase_after_end l c.1 nxt c.2 hh hm⟩

/-- Witness of C15: both calls fail on the assertion on a default-constructed
list and succeed on `sample`. -/
theorem pop_front_fails_iff_empty_witness :
    (pop_front (default_ctor : forward_linked_list Nat) = .error .assertion ∧
      erase_after (default_ctor : forward_linked_list Nat)
        (default_ctor : forward_linked_list Nat).end_ = .error .assertion) ∧
    iterate sample = .ok (10 :: [20, 30]) ∧
    ∃ l1, pop_front sample = .ok l1 ∧ erase_after sample sample.end_ = .ok l1 :=
  ⟨⟨(pop_front_fails_iff_empty default_ctor).1.mpr rfl,
      (pop_front_fails_iff_empty default_ctor).2.1.mpr rfl⟩,
    rfl, (pop_front_fails_iff_empty sample).2.2 10 [20, 30] rfl⟩

/-- C16: `operator*`, pre-increment and post-increment fail on their assertion
if and only if the iterator is the end iterator (`m_current` is none); for an
iterator denoting a live node, dereference yields the value stored in that
node, pre-increment moves the position to the node's successor, and
post-increment does the same and returns the iterator as it was. -/
theorem iterator_ops_fail_iff_end (mem : store Item) (it : const_iterator) :
    (deref mem it = .error .assertion ↔ it.m_current = none) ∧
    (incr mem it = .error .assertion ↔ it.m_current = none) ∧
    (post_incr mem it = .error .assertion ↔ it.m_current = none) ∧
    (∀ p nd, it.m_current = some p → mem[p]? = some (some nd) →
      deref mem it = .ok nd.data ∧ incr mem it = .ok ⟨nd.next⟩ ∧
      post_incr mem it = .ok (it, ⟨nd.next⟩)) := by
  cases it with
  | mk cur =>
    cases cur with
    | none => simp [deref, incr, post_incr]
    | some p =>
      refine ⟨?_, ?_, ?_, ?_⟩
      · simp only [deref, load]
        cases hm : mem[p]? with
        | none => simp
        | some cell => cases cell <;> simp
      · simp only [incr, load]
        cases hm : mem[p]? with
        | none => simp
        | some cell => cases cell <;> simp
      · simp only [post_incr, load]
        cases hm : mem[p]? with
        | none => simp
        | some cell => cases cell <;> simp
      · intro q nd hq hm
        have hpq : p = q := Option.some.inj hq
        subst hpq
        simp [deref, incr, post_incr, load, hm]

/-- Witness of C16: the three operators on the end iterator and on the
iterator at the node of address 1 of `sample` (value 20, successor 2). -/
theorem iterator_ops_fail_iff_end_witness :
    (deref sample.mem sample.end_ = .error .assertion ∧
      incr sample.mem sample.end_ = .error .assertion ∧
      post_incr sample.mem sample.end_ = .error .assertion) ∧
    deref sample.mem ⟨some 1⟩ = .ok 20 ∧ incr sample.mem ⟨some 1⟩ = .ok ⟨some 2⟩ ∧
      post_incr sample.mem ⟨some 1⟩ = .ok (⟨some 1⟩, ⟨some 2⟩) :=
  ⟨⟨(iterator_ops_fail_iff_end sample.mem sample.end_).1.mpr rfl,
      (iterator_ops_fail_iff_end sample.mem sample.end_).2.1.mpr rfl,
      (iterator_ops_fail_iff_end sample.mem sample.end_).2.2.1.mpr rfl⟩,
    (iterator_ops_fail_iff_end sample.mem ⟨some 1⟩).2.2.2 1 ⟨some 2, 20⟩ rfl rfl⟩

/-- C19: on a list that iterates as `xs`, `insert_after(end(), v)` is the call
`push_front(v)` and the result iterates as `v :: xs`; for the iterator at an
index `i < xs.length`, `insert_after(it, v)` succeeds and the result iterates
as `x0..xi, v, x(i+1)..x(n-1)`. Both are the reference definition
`insert_after_spec`; the old elements keep their order and the length grows
by exactly one. -/
theorem insert_after_matches_spec (l : forward_linked_list Item) (xs : List Item) (v : Item)
    (h : iterate l = .ok xs) :
    (insert_after l l.end_ v = push_front l v ∧
      ∃ l1, insert_after l l.end_ v = .ok l1 ∧ iterate l1 = .ok (v :: xs) ∧
        v :: xs = insert_after_spec xs none v) ∧
    (∀ i it, i < xs.length → iterator_at l i = .ok it →
      ∃ l1 ys, insert_after l it v = .ok l1 ∧ iterate l1 = .ok ys ∧
        ys = xs.take (i + 1) ++ v :: xs.drop (i + 1) ∧
        ys = insert_after_spec xs (some i) v ∧ ys.length = xs.length + 1) := by
  obtain ⟨cs, hseg, hmap⟩ := seg_of_iterate l xs h
  subst hmap
  refine ⟨⟨rfl, ?_⟩, ?_⟩
  · obtain ⟨l1, hpf, hs1, _⟩ := push_front_seg l cs v hseg
    refine ⟨l1, hpf, ?_, rfl⟩
    rw [iterate_of_seg l1 _ hs1]
    rfl
  · intro i it hi hit
    rw [List.length_map] at hi
    obtain ⟨pre, c, post, nxt, hcs, hlen, hitc, _, _, _⟩ :=
      seg_split_iterator l cs i it hseg hi hit
    subst hitc
    subst hcs
    obtain ⟨l1, hins, hs1, _⟩ := insert_after_seg l pre post c v hseg
    have hsplice := take_drop_splice (pre.map Prod.snd) c.2 v (post.map Prod.snd)
    rw [List.length_map, hlen] at hsplice
    have hys : (pre ++ c :: (l.mem.length, v) :: post).map Prod.snd =
        ((pre ++ c :: post).map Prod.snd).take (i + 1) ++
          v :: ((pre ++ c :: post).map Prod.snd).drop (i + 1) := by
      simp only [List.map_append, List.map_cons]
      exact hsplice.symm
    refine ⟨l1, _, hins, iterate_of_seg l1 _ hs1, hys, hys, ?_⟩
    simp only [List.length_map, List.length_append, List.length_cons]
    omega

/-- Witness of C19: inserting 7 at the front and after the node at index 1 of
`sample`. -/
theorem insert_after_matches_spec_witness :
    iterate sample = .ok [10, 20, 30] ∧
    (insert_after sample sample.end_ 7 = push_front sample 7 ∧
      ∃ l1, insert_after sample sample.end_ 7 = .ok l1 ∧
        iterate l1 = .ok (7 :: [10, 20, 30]) ∧
        7 :: [10, 20, 30] = insert_after_spec [10, 20, 30] none 7) ∧
    1 < [10, 20, 30].length ∧ iterator_at sample 1 = .ok ⟨some 1⟩ ∧
    ∃ l1 ys, insert_after sample ⟨some 1⟩ 7 = .ok l1 ∧ iterate l1 = .ok ys ∧
      ys = [10, 20, 30].take (1 + 1) ++ 7 :: [10, 20, 30].drop (1 + 1) ∧
      ys = insert_after_spec [10, 20, 30] (some 1) 7 ∧
      ys.length = [10, 20, 30].length + 1 :=
  ⟨rfl, (insert_after_matches_spec sample [10, 20, 30] 7 rfl).1, by decide, rfl,
    (insert_after_matches_spec sample [10, 20, 30] 7 rfl).2 1 ⟨some 1⟩ (by decide) rfl⟩

/-- C20: every finite sequence of `push_front`, `push_back` and `clear` calls on
a default-constructed list succeeds, and the resulting list iterates (as some
`xs`) with the tail invariant: head is none iff tail is none iff `xs` is
empty, and when `xs` is not empty tail is the node at the last index reached
from head and the link of that node is none. -/
theorem end_ops_keep_tail_invariant (ops : List (end_op Item)) :
    ∃ l xs, List.foldlM end_op.run default_ctor ops = .ok l ∧ iterate l = .ok xs ∧
      (l.m_head = none ↔ l.m_tail = none) ∧ (l.m_head = none ↔ xs = []) ∧
      (xs = [] ∨ (iterator_at l (xs.length - 1) = .ok ⟨l.m_tail⟩ ∧
        incr l.mem ⟨l.m_tail⟩ = .ok l.end_)) := by
  obtain ⟨l, cs, hrun, hh⟩ := end_ops_hold ops default_ctor [] holds_default_ctor
  obtain ⟨hit, hiff, hnil, hlast⟩ := holds_facts l cs hh
  refine ⟨l, cs.map Prod.snd, hrun, hit, hiff, ?_, ?_⟩
  · rw [hnil]
    simp
  · rcases hlast with hl | hl
    · exact Or.inl (by simp [hl])
    · right
      rw [List.length_map]
      exact hl

end forward_list
